import Mathlib

/-!
# Verification of the devkit JSON tree visitor and the architect CLI launcher

This file gives a shallow embedding of the two artifacts of the repository
that the claims are about:

* the recursive JSON value-tree transformer (`visitJson`): the repository
  ships its test suite (`src/unnamed/part_000`) but not the visitor source
  itself, so the engine is modelled from the specification (section 4.1 of
  the design document) and validated against the behaviours the test suite
  pins down;
* the `findUp` directory-walking helper and the configuration-file lookup of
  `packages/angular_devkit/architect_cli/bin/architect.ts`, embedded directly
  from the source.
-/

/-- The JSON data model of the engine (spec section 3): a recursive tagged
union Null | Boolean | Number | String | ordered Array | ordered Object.
Numbers are modelled as integers, which covers every numeric value the
claims mention. -/
inductive JsonValue where
  | null
  | bool (b : Bool)
  | num (n : Int)
  | str (s : String)
  | arr (items : List JsonValue)
  | obj (entries : List (String × JsonValue))

/-- Modelled from the spec: `AsyncSingle<T>` (the missing visitor source and
its rxjs Observable plumbing are not under `src/`), an abstraction that
resolves to exactly one value or fails, exactly once.  `delay` models the
settlement time of the asynchronous resolution (0 for a synchronous return);
`result` is the single terminal outcome: a value or an error. -/
structure AsyncSingle (α : Type) where
  delay : Nat
  result : Except String α

/-- A suffix test on strings, used to embed the `ptr.endsWith(...)` checks of
the test-suite callbacks. -/
def strEndsWith (s suffix : String) : Bool :=
  List.isSuffixOf suffix.data s.data

/-- Children of an array paired with their indices, starting from `i`. -/
def indexedFrom (i : Nat) : List JsonValue → List (Nat × JsonValue)
  | [] => []
  | x :: rest => (i, x) :: indexedFrom (i + 1) rest

/-- Sequence a list of optional results: `none` marks fuel exhaustion of a
child visit and poisons the whole list. -/
def seqOption : List (Option α) → Option (List α)
  | [] => some []
  | none :: _ => none
  | some x :: rest => (seqOption rest).map (x :: ·)

/-- Modelled from the spec: joining the concurrent child visits of one
container (the missing visitor source combines them through rxjs).  All
children are awaited — the combined settlement time is the latest child's —
and the combined outcome is the list of child values in original order, or
the first error in order if any child failed. -/
def combineAsync : List (AsyncSingle α) → AsyncSingle (List α)
  | [] => ⟨0, .ok []⟩
  | a :: rest =>
    let r := combineAsync rest
    ⟨max a.delay r.delay,
      match a.result with
      | .error e => .error e
      | .ok x =>
        match r.result with
        | .error e => .error e
        | .ok xs => .ok (x :: xs)⟩

/-- Modelled from the spec: the visitor engine `visitJson` itself, whose
source is not under `src/` (only its test suite is).  Per node `n` at
pointer `p` (spec section 4.1): invoke `replace n p`, await its resolution
to a value `v`; if `v` is an object, visit every entry `(k, c)` at pointer
`p + "/" + k` and assemble a new object with the same key order; if `v` is
an array, visit every element `x_i` at pointer `p + "/" + i` and assemble a
new array in index order; otherwise `v` is the final value of the node.
Any callback failure aborts the traversal with that error.  `fuel` bounds
the replacement-descent depth: the spec documents that a callback which
keeps replacing nodes with fresh containers never terminates, so the
embedding returns `none` when the chain outlives the fuel — `none` is a
modelling artifact, not an outcome of the engine. -/
def visitJson (replace : JsonValue → String → AsyncSingle JsonValue) :
    Nat → JsonValue → String → Option (AsyncSingle JsonValue)
  | 0, _, _ => none
  | fuel + 1, value, ptr =>
    let a := replace value ptr
    match a.result with
    | .error e => some ⟨a.delay, .error e⟩
    | .ok r =>
      match r with
      | .obj entries =>
        match seqOption (entries.map fun kc =>
            visitJson replace fuel kc.2 (ptr ++ "/" ++ kc.1)) with
        | none => none
        | some children =>
          let c := combineAsync children
          some ⟨a.delay + c.delay,
            c.result.map fun vs => .obj (List.zip (entries.map Prod.fst) vs)⟩
      | .arr items =>
        match seqOption ((indexedFrom 0 items).map fun ix =>
            visitJson replace fuel ix.2 (ptr ++ "/" ++ toString ix.1)) with
        | none => none
        | some children =>
          let c := combineAsync children
          some ⟨a.delay + c.delay, c.result.map fun vs => .arr vs⟩
      | other => some ⟨a.delay, .ok other⟩

/-- The trace of callback invocations performed by `visitJson`, in traversal
order: the engine invokes `replace` once per node, including the nodes that
only exist because an ancestor was replaced.  Mirrors `visitJson` exactly:
a node contributes `(ptr, value)` and then, when its replacement resolved to
a container, the traces of the container's children at their child
pointers. -/
def visitCalls (replace : JsonValue → String → AsyncSingle JsonValue) :
    Nat → JsonValue → String → List (String × JsonValue)
  | 0, _, _ => []
  | fuel + 1, value, ptr =>
    (ptr, value) ::
      match (replace value ptr).result with
      | .error _ => []
      | .ok (.obj entries) =>
        entries.flatMap fun kc => visitCalls replace fuel kc.2 (ptr ++ "/" ++ kc.1)
      | .ok (.arr items) =>
        (indexedFrom 0 items).flatMap fun ix =>
          visitCalls replace fuel ix.2 (ptr ++ "/" ++ toString ix.1)
      | .ok _ => []


/-! ## Callbacks appearing in the test suite and in the claims -/

/-- The identity callback `(v) => v`: every node is kept unchanged and is
already resolved (settlement delay 0). -/
def identityReplace : JsonValue → String → AsyncSingle JsonValue :=
  fun v _ => ⟨0, .ok v⟩

/-- The callback of the test "goes through all replacements recursively"
(src/unnamed/part_000 lines 64–78), embedded clause by clause: a pointer
ending in `a`, `b` or `c` substitutes the respective fixed container, a
numeric value becomes `"_" + value`, the root pointer keeps its value
unchanged, and anything else becomes `"abc"`. -/
def scenarioCReplace (v : JsonValue) (ptr : String) : AsyncSingle JsonValue :=
  ⟨0, .ok (
    if strEndsWith ptr "a" then .obj [("b", .str "")]
    else if strEndsWith ptr "b" then .obj [("c", .arr [])]
    else if strEndsWith ptr "c" then .arr [.num 1, .num 2, .num 3]
    else match v with
      | .num n => .str ("_" ++ toString n)
      | w => if ptr = "/" then w else .str "abc")⟩

/-- The Scenario C callback wrapped in asynchronous resolution (the test
"goes through all replacements recursively (async)" wraps each returned
value in `from(Promise.resolve(...))`): identical outcomes, but settled
with a pointer-dependent delay so that deeper nodes settle earlier. -/
def scenarioCDelayed (v : JsonValue) (ptr : String) : AsyncSingle JsonValue :=
  ⟨100 - ptr.length, (scenarioCReplace v ptr).result⟩

/-- The callback of the test "goes through recursively if replacing root"
(src/unnamed/part_000 lines 43–56): any value with JS `typeof == 'object'`
(object, array or null) is replaced by the container `{b: "hello "}`, every
other value is coerced to a string with `"world"` appended. -/
def rootSubstReplace (v : JsonValue) (_ptr : String) : AsyncSingle JsonValue :=
  ⟨0, .ok (match v with
    | .obj _ => .obj [("b", .str "hello ")]
    | .arr _ => .obj [("b", .str "hello ")]
    | .null => .obj [("b", .str "hello ")]
    | .str s => .str (s ++ "world")
    | .num n => .str (toString n ++ "world")
    | .bool b => .str ((if b then "true" else "false") ++ "world"))⟩

/-- A callback whose asynchronous result always fails. -/
def failingReplace : JsonValue → String → AsyncSingle JsonValue :=
  fun _ _ => ⟨0, .error "boom"⟩

/-! ## The architect CLI launcher: `findUp` and the workspace config lookup

Embedded from `packages/angular_devkit/architect_cli/bin/architect.ts`.
A directory is modelled as its list of path segments below the filesystem
root, innermost segment first (so `/home/user` is `["user", "home"]` and the
root directory is `[]`): with this orientation `path.dirname` is `List.tail`.
A candidate file path `path.join(currentDir, name)` is the pair
`(currentDir, name)`, and `existsSync` is a boolean predicate on such
pairs. -/

/-- Embedded from `findUp` (architect.ts lines 20–39): check every name in
`names` against the current directory, return the first existing joined
path, otherwise move to the parent directory; the loop runs only while the
current directory differs from the parsed filesystem root. -/
def findUp (fsExists : List String → String → Bool) (names : List String) :
    List String → Option (List String × String)
  | [] => none
  | currentDir@(_ :: parentDir) =>
    match names.find? (fun name => fsExists currentDir name) with
    | some name => some (currentDir, name)
    | none => findUp fsExists names parentDir

/-- The workspace configuration filename the launcher searches for
(`configFileName` in architect.ts). -/
def configFileName : String := ".workspace.json"

/-- Terminal outcome of the launcher's configuration-file lookup. -/
inductive LaunchOutcome where
  | exitCode (code : Nat)
  | runWith (configFilePath : List String × String)

/-- Embedded from architect.ts lines 82–92: locate `.workspace.json` from
the current working directory with `findUp`; when it cannot be found, the
launcher logs a fatal message and exits with code 3 instead of parsing a
configuration; otherwise it proceeds with the found path. -/
def locateWorkspaceConfig (fsExists : List String → String → Bool)
    (currentPath : List String) : LaunchOutcome :=
  match findUp fsExists [configFileName] currentPath with
  | none => .exitCode 3
  | some p => .runWith p

/-- The sequence of candidate file paths examined by the walk, in order:
every name joined to the starting directory, then to each successive parent
directory, stopping before the filesystem root (the root itself is never
examined). -/
def searchOrder (names : List String) : List String → List (List String × String)
  | [] => []
  | currentDir@(_ :: parentDir) =>
    names.map (fun name => (currentDir, name)) ++ searchOrder names parentDir

/-- The walk C9 describes, taken literally: the current working directory,
then every parent directory including the filesystem root itself. -/
def searchOrderWithRoot (names : List String) :
    List String → List (List String × String)
  | [] => names.map fun name => (([] : List String), name)
  | currentDir@(_ :: parentDir) =>
    names.map (fun name => (currentDir, name)) ++ searchOrderWithRoot names parentDir


/-- A model filesystem containing exactly one file: `.workspace.json` in the
filesystem root directory. -/
def rootOnlyFs : List String → String → Bool :=
  fun d name => d.isEmpty && (name == configFileName)

/-- Whether the replace callback fails at an invoked (pointer, value)
pair of the trace. -/
def callFails (f : JsonValue → String → AsyncSingle JsonValue)
    (qw : String × JsonValue) : Bool :=
  match (f qw.2 qw.1).result with
  | .error _ => true
  | .ok _ => false

/-- The outcome the failure-propagation contract dictates for a traversal
whose callback invocations are `trace`: when some invoked callback fails,
the single outcome `r` is the error of the first failing invocation in
traversal order — an error carries no value, hence no partial or assembled
result; when every invoked callback succeeds, `r` carries a value. -/
def FirstErrorSpec (f : JsonValue → String → AsyncSingle JsonValue)
    (trace : List (String × JsonValue)) {α : Type} (r : Except String α) : Prop :=
  (∀ qw, trace.find? (callFails f) = some qw →
    ∃ e, (f qw.2 qw.1).result = .error e ∧ r = .error e) ∧
  (trace.find? (callFails f) = none → ∃ x, r = .ok x)

/-! ## Helper lemmas about the combinators -/

theorem indexedFrom_map_snd (n : Nat) (l : List JsonValue) :
    (indexedFrom n l).map Prod.snd = l := by
  induction l generalizing n with
  | nil => rfl
  | cons x rest ih => simp [indexedFrom, ih]

theorem snd_mem_of_mem_indexedFrom {n : Nat} {l : List JsonValue}
    {ix : Nat × JsonValue} (h : ix ∈ indexedFrom n l) : ix.2 ∈ l := by
  induction l generalizing n with
  | nil => cases h
  | cons x rest ih =>
    rcases List.mem_cons.mp h with h | h
    · subst h; exact List.mem_cons_self _ _
    · exact List.mem_cons_of_mem _ (ih h)

theorem getElem?_of_mem_indexedFrom {n : Nat} {l : List JsonValue}
    {i : Nat} {x : JsonValue} (h : (i, x) ∈ indexedFrom n l) :
    n ≤ i ∧ l[i - n]? = some x := by
  induction l generalizing n with
  | nil => cases h
  | cons y rest ih =>
    rcases List.mem_cons.mp h with h | h
    · obtain ⟨rfl, rfl⟩ := Prod.mk.injEq .. ▸ h
      exact ⟨Nat.le_refl _, by simp⟩
    · obtain ⟨hle, hget⟩ := ih h
      refine ⟨Nat.le_of_succ_le hle, ?_⟩
      have hin : i - n = (i - (n + 1)) + 1 := by omega
      simp [hin, hget]

theorem seqOption_congr {α β : Type} {g : α → Option β} {h : α → β}
    (l : List α) (H : ∀ x ∈ l, g x = some (h x)) :
    seqOption (l.map g) = some (l.map h) := by
  induction l with
  | nil => rfl
  | cons x rest ih =>
    have hx : g x = some (h x) := H x (List.mem_cons_self _ _)
    have hrest : seqOption (rest.map g) = some (rest.map h) :=
      ih fun y hy => H y (List.mem_cons_of_mem _ hy)
    simp [seqOption, hx, hrest]

theorem seqOption_eq_some {α : Type} {l : List (Option α)} {c : List α}
    (h : seqOption l = c) : List.Forall₂ (fun o a => o = some a) l c := by
  induction l generalizing c with
  | nil =>
    simp only [seqOption] at h
    cases h
    exact .nil
  | cons o rest ih =>
    cases o with
    | none => simp [seqOption] at h
    | some x =>
      simp only [seqOption] at h
      cases hrest : seqOption rest with
      | none => rw [hrest] at h; cases h
      | some cs =>
        rw [hrest] at h
        cases h
        exact .cons rfl (ih hrest)

theorem mem_of_forall₂_some {α : Type} {l : List (Option α)} {c : List α}
    (h : List.Forall₂ (fun o a => o = some a) l c) : ∀ a ∈ c, some a ∈ l := by
  induction h with
  | nil => intro a ha; cases ha
  | cons hoa _ ih =>
    intro a ha
    rcases List.mem_cons.mp ha with ha | ha
    · subst ha; subst hoa; exact List.mem_cons_self _ _
    · exact List.mem_cons_of_mem _ (ih a ha)

theorem combineAsync_pure {α β : Type} (f : α → β) (l : List α) :
    combineAsync (l.map fun x => (⟨0, .ok (f x)⟩ : AsyncSingle β)) =
      ⟨0, .ok (l.map f)⟩ := by
  induction l with
  | nil => rfl
  | cons x rest ih => simp [combineAsync, ih]

theorem combineAsync_error_mem {α : Type} {l : List (AsyncSingle α)} {e : String}
    (h : (combineAsync l).result = .error e) : ∃ a ∈ l, a.result = .error e := by
  induction l with
  | nil => simp [combineAsync] at h
  | cons a rest ih =>
    simp only [combineAsync] at h
    cases ha : a.result with
    | error e' =>
      rw [ha] at h
      cases h
      exact ⟨a, List.mem_cons_self _ _, ha⟩
    | ok x =>
      rw [ha] at h
      cases hr : (combineAsync rest).result with
      | error e' =>
        rw [hr] at h
        cases h
        obtain ⟨b, hb, hbe⟩ := ih hr
        exact ⟨b, List.mem_cons_of_mem _ hb, hbe⟩
      | ok xs => rw [hr] at h; cases h

theorem combineAsync_ok_of {α : Type} {l : List (AsyncSingle α)}
    (h : ∀ a ∈ l, ∃ x, a.result = .ok x) :
    ∃ xs, (combineAsync l).result = .ok xs := by
  induction l with
  | nil => exact ⟨[], rfl⟩
  | cons a rest ih =>
    obtain ⟨x, hx⟩ := h a (List.mem_cons_self _ _)
    obtain ⟨xs, hxs⟩ := ih fun b hb => h b (List.mem_cons_of_mem _ hb)
    exact ⟨x :: xs, by simp [combineAsync, hx, hxs]⟩

theorem combineAsync_result_ok {α : Type} {l : List (AsyncSingle α)} {xs : List α}
    (h : (combineAsync l).result = .ok xs) :
    List.Forall₂ (fun a x => a.result = .ok x) l xs := by
  induction l generalizing xs with
  | nil =>
    simp only [combineAsync] at h
    cases h
    exact .nil
  | cons a rest ih =>
    simp only [combineAsync] at h
    cases ha : a.result with
    | error e => rw [ha] at h; cases h
    | ok x =>
      rw [ha] at h
      cases hr : (combineAsync rest).result with
      | error e => rw [hr] at h; cases h
      | ok ys =>
        rw [hr] at h
        cases h
        exact .cons ha (ih hr)

theorem forall₂_compose {α β γ : Type} {R : α → β → Prop} {S : β → γ → Prop}
    {l₁ : List α} {l₂ : List β} {l₃ : List γ}
    (h₁ : List.Forall₂ R l₁ l₂) (h₂ : List.Forall₂ S l₂ l₃) :
    List.Forall₂ (fun a c => ∃ b, R a b ∧ S b c) l₁ l₃ := by
  induction h₁ generalizing l₃ with
  | nil => cases h₂; exact .nil
  | cons hab _ ih =>
    cases h₂ with
    | cons hbc htail => exact .cons ⟨_, hab, hbc⟩ (ih htail)

theorem zip_fst_snd {α β : Type} (l : List (α × β)) :
    List.zip (l.map Prod.fst) (l.map Prod.snd) = l := by
  rw [List.zip_map']
  exact List.map_id l

theorem sizeOf_mem_arr {x : JsonValue} {items : List JsonValue} (h : x ∈ items) :
    sizeOf x < sizeOf (JsonValue.arr items) := by
  induction h with
  | head => simp; omega
  | tail _ _ ih => simp at ih ⊢; omega

theorem sizeOf_mem_obj {kc : String × JsonValue} {entries : List (String × JsonValue)}
    (h : kc ∈ entries) : sizeOf kc.2 < sizeOf (JsonValue.obj entries) := by
  induction h with
  | head => cases kc; simp; omega
  | tail _ _ ih => simp at ih ⊢; omega

/-! ## The identity law -/

theorem visitJson_identity_aux :
    ∀ (fuel : Nat) (v : JsonValue) (ptr : String), sizeOf v < fuel →
      visitJson identityReplace fuel v ptr = some ⟨0, .ok v⟩ := by
  intro fuel
  induction fuel with
  | zero => intro v ptr h; exact absurd h (by omega)
  | succ fuel ih =>
    intro v ptr h
    cases v with
    | null => rfl
    | bool b => rfl
    | num n => rfl
    | str s => rfl
    | arr items =>
      have hchild : ∀ ix ∈ indexedFrom 0 items,
          visitJson identityReplace fuel ix.2 (ptr ++ "/" ++ toString ix.1) =
            some ⟨0, .ok ix.2⟩ := by
        intro ix hix
        refine ih _ _ ?_
        have := sizeOf_mem_arr (snd_mem_of_mem_indexedFrom hix)
        omega
      simp only [visitJson, identityReplace]
      rw [seqOption_congr _ hchild]
      simp [combineAsync_pure Prod.snd, indexedFrom_map_snd, Except.map]
    | obj entries =>
      have hchild : ∀ kc ∈ entries,
          visitJson identityReplace fuel kc.2 (ptr ++ "/" ++ kc.1) =
            some ⟨0, .ok kc.2⟩ := by
        intro kc hkc
        refine ih _ _ ?_
        have := sizeOf_mem_obj hkc
        omega
      simp only [visitJson, identityReplace]
      rw [seqOption_congr _ hchild]
      simp [combineAsync_pure Prod.snd, zip_fst_snd, Except.map]

/-! ## Settlement-order independence -/

theorem forall₂_map_of_mem {α β : Type} {P : β → β → Prop} {f₁ f₂ : α → β}
    {l : List α} (h : ∀ x ∈ l, P (f₁ x) (f₂ x)) :
    List.Forall₂ P (l.map f₁) (l.map f₂) := by
  induction l with
  | nil => exact .nil
  | cons x rest ih =>
    exact .cons (h x (List.mem_cons_self _ _))
      (ih fun y hy => h y (List.mem_cons_of_mem _ hy))

theorem seqCombine_congr {α : Type} {l₁ l₂ : List (Option (AsyncSingle α))}
    (H : List.Forall₂
      (fun o₁ o₂ => o₁.map AsyncSingle.result = o₂.map AsyncSingle.result) l₁ l₂) :
    (seqOption l₁).map (fun c => (combineAsync c).result) =
      (seqOption l₂).map (fun c => (combineAsync c).result) := by
  induction H with
  | nil => rfl
  | @cons o₁ o₂ t₁ t₂ hoo _ ih =>
    cases o₁ with
    | none =>
      cases o₂ with
      | none => simp [seqOption]
      | some a₂ => simp [Option.map] at hoo
    | some a₁ =>
      cases o₂ with
      | none => simp [Option.map] at hoo
      | some a₂ =>
        have hres : a₁.result = a₂.result := by
          simpa [Option.map] using hoo
        simp only [seqOption]
        cases h₁ : seqOption t₁ with
        | none =>
          cases h₂ : seqOption t₂ with
          | none => simp
          | some c₂ =>
            rw [h₁, h₂] at ih
            simp [Option.map] at ih
        | some c₁ =>
          cases h₂ : seqOption t₂ with
          | none =>
            rw [h₁, h₂] at ih
            simp [Option.map] at ih
          | some c₂ =>
            rw [h₁, h₂] at ih
            have hcc : (combineAsync c₁).result = (combineAsync c₂).result := by
              simpa [Option.map] using ih
            simp only [Option.map_some, Option.map]
            simp only [combineAsync]
            rw [hres, hcc]

theorem visitJson_result_congr
    (f g : JsonValue → String → AsyncSingle JsonValue)
    (H : ∀ w q, (f w q).result = (g w q).result) :
    ∀ (fuel : Nat) (v : JsonValue) (ptr : String),
      (visitJson f fuel v ptr).map AsyncSingle.result =
        (visitJson g fuel v ptr).map AsyncSingle.result := by
  intro fuel
  induction fuel with
  | zero => intro v ptr; rfl
  | succ fuel ih =>
    intro v ptr
    simp only [visitJson]
    rw [← H v ptr]
    cases hr : (f v ptr).result with
    | error e => simp
    | ok r =>
      cases r with
      | null => rfl
      | bool b => rfl
      | num n => rfl
      | str s => rfl
      | obj entries =>
        simp only []
        have hF :
            (seqOption (entries.map fun kc =>
                visitJson f fuel kc.2 (ptr ++ "/" ++ kc.1))).map
              (fun c => (combineAsync c).result) =
            (seqOption (entries.map fun kc =>
                visitJson g fuel kc.2 (ptr ++ "/" ++ kc.1))).map
              (fun c => (combineAsync c).result) :=
          seqCombine_congr (forall₂_map_of_mem
            (fun kc _ => ih kc.2 (ptr ++ "/" ++ kc.1)))
        cases h₁ : seqOption (entries.map fun kc =>
            visitJson f fuel kc.2 (ptr ++ "/" ++ kc.1)) with
        | none =>
          cases h₂ : seqOption (entries.map fun kc =>
              visitJson g fuel kc.2 (ptr ++ "/" ++ kc.1)) with
          | none => rfl
          | some c₂ => rw [h₁, h₂] at hF; simp [Option.map] at hF
        | some c₁ =>
          cases h₂ : seqOption (entries.map fun kc =>
              visitJson g fuel kc.2 (ptr ++ "/" ++ kc.1)) with
          | none => rw [h₁, h₂] at hF; simp [Option.map] at hF
          | some c₂ =>
            rw [h₁, h₂] at hF
            have hcc : (combineAsync c₁).result = (combineAsync c₂).result := by
              simpa [Option.map] using hF
            simp [Option.map, hcc]
      | arr items =>
        simp only []
        have hF :
            (seqOption ((indexedFrom 0 items).map fun ix =>
                visitJson f fuel ix.2 (ptr ++ "/" ++ toString ix.1))).map
              (fun c => (combineAsync c).result) =
            (seqOption ((indexedFrom 0 items).map fun ix =>
                visitJson g fuel ix.2 (ptr ++ "/" ++ toString ix.1))).map
              (fun c => (combineAsync c).result) :=
          seqCombine_congr (forall₂_map_of_mem
            (fun ix _ => ih ix.2 (ptr ++ "/" ++ toString ix.1)))
        cases h₁ : seqOption ((indexedFrom 0 items).map fun ix =>
            visitJson f fuel ix.2 (ptr ++ "/" ++ toString ix.1)) with
        | none =>
          cases h₂ : seqOption ((indexedFrom 0 items).map fun ix =>
              visitJson g fuel ix.2 (ptr ++ "/" ++ toString ix.1)) with
          | none => rfl
          | some c₂ => rw [h₁, h₂] at hF; simp [Option.map] at hF
        | some c₁ =>
          cases h₂ : seqOption ((indexedFrom 0 items).map fun ix =>
              visitJson g fuel ix.2 (ptr ++ "/" ++ toString ix.1)) with
          | none => rw [h₁, h₂] at hF; simp [Option.map] at hF
          | some c₂ =>
            rw [h₁, h₂] at hF
            have hcc : (combineAsync c₁).result = (combineAsync c₂).result := by
              simpa [Option.map] using hF
            simp [Option.map, hcc]

/-! ## Failure propagation -/

theorem visitJson_error_src (f : JsonValue → String → AsyncSingle JsonValue) :
    ∀ (fuel : Nat) (v : JsonValue) (ptr : String) (a : AsyncSingle JsonValue)
      (e : String), visitJson f fuel v ptr = some a → a.result = .error e →
      ∃ w q, (f w q).result = .error e := by
  intro fuel
  induction fuel with
  | zero => intro v ptr a e hv _; cases hv
  | succ fuel ih =>
    intro v ptr a e hv hae
    simp only [visitJson] at hv
    cases hr : (f v ptr).result with
    | error e' =>
      rw [hr] at hv
      simp only [] at hv
      cases hv
      cases hae
      exact ⟨v, ptr, hr⟩
    | ok r =>
      rw [hr] at hv
      simp only [] at hv
      cases r with
      | null => cases hv; cases hae
      | bool b => cases hv; cases hae
      | num n => cases hv; cases hae
      | str s => cases hv; cases hae
      | obj entries =>
        simp only [] at hv
        cases hs : seqOption (entries.map fun kc =>
            visitJson f fuel kc.2 (ptr ++ "/" ++ kc.1)) with
        | none => rw [hs] at hv; cases hv
        | some c =>
          rw [hs] at hv
          simp only [] at hv
          cases hv
          cases hcr : (combineAsync c).result with
          | ok xs => rw [hcr] at hae; simp [Except.map] at hae
          | error e'' =>
            rw [hcr] at hae
            simp only [Except.map] at hae
            cases hae
            obtain ⟨b, hb, hbe⟩ := combineAsync_error_mem hcr
            have hsb : some b ∈ entries.map fun kc =>
                visitJson f fuel kc.2 (ptr ++ "/" ++ kc.1) :=
              mem_of_forall₂_some (seqOption_eq_some hs) b hb
            obtain ⟨kc, _, hkc⟩ := List.mem_map.mp hsb
            exact ih kc.2 (ptr ++ "/" ++ kc.1) b e hkc hbe
      | arr items =>
        simp only [] at hv
        cases hs : seqOption ((indexedFrom 0 items).map fun ix =>
            visitJson f fuel ix.2 (ptr ++ "/" ++ toString ix.1)) with
        | none => rw [hs] at hv; cases hv
        | some c =>
          rw [hs] at hv
          simp only [] at hv
          cases hv
          cases hcr : (combineAsync c).result with
          | ok xs => rw [hcr] at hae; simp [Except.map] at hae
          | error e'' =>
            rw [hcr] at hae
            simp only [Except.map] at hae
            cases hae
            obtain ⟨b, hb, hbe⟩ := combineAsync_error_mem hcr
            have hsb : some b ∈ (indexedFrom 0 items).map fun ix =>
                visitJson f fuel ix.2 (ptr ++ "/" ++ toString ix.1) :=
              mem_of_forall₂_some (seqOption_eq_some hs) b hb
            obtain ⟨ix, _, hix⟩ := List.mem_map.mp hsb
            exact ih ix.2 (ptr ++ "/" ++ toString ix.1) b e hix hbe

theorem visitJson_ok_total (f : JsonValue → String → AsyncSingle JsonValue)
    (H : ∀ w q, ∃ x, (f w q).result = .ok x) :
    ∀ (fuel : Nat) (v : JsonValue) (ptr : String) (a : AsyncSingle JsonValue),
      visitJson f fuel v ptr = some a → ∃ x, a.result = .ok x := by
  intro fuel
  induction fuel with
  | zero => intro v ptr a hv; cases hv
  | succ fuel ih =>
    intro v ptr a hv
    simp only [visitJson] at hv
    obtain ⟨x, hx⟩ := H v ptr
    rw [hx] at hv
    simp only [] at hv
    cases x with
    | null => cases hv; exact ⟨_, rfl⟩
    | bool b => cases hv; exact ⟨_, rfl⟩
    | num n => cases hv; exact ⟨_, rfl⟩
    | str s => cases hv; exact ⟨_, rfl⟩
    | obj entries =>
      simp only [] at hv
      cases hs : seqOption (entries.map fun kc =>
          visitJson f fuel kc.2 (ptr ++ "/" ++ kc.1)) with
      | none => rw [hs] at hv; cases hv
      | some c =>
        rw [hs] at hv
        simp only [] at hv
        cases hv
        have hall : ∀ b ∈ c, ∃ y, b.result = .ok y := by
          intro b hb
          have hsb : some b ∈ entries.map fun kc =>
              visitJson f fuel kc.2 (ptr ++ "/" ++ kc.1) :=
            mem_of_forall₂_some (seqOption_eq_some hs) b hb
          obtain ⟨kc, _, hkc⟩ := List.mem_map.mp hsb
          exact ih kc.2 (ptr ++ "/" ++ kc.1) b hkc
        obtain ⟨xs, hxs⟩ := combineAsync_ok_of hall
        exact ⟨.obj ((entries.map Prod.fst).zip xs), by simp [hxs, Except.map]⟩
    | arr items =>
      simp only [] at hv
      cases hs : seqOption ((indexedFrom 0 items).map fun ix =>
          visitJson f fuel ix.2 (ptr ++ "/" ++ toString ix.1)) with
      | none => rw [hs] at hv; cases hv
      | some c =>
        rw [hs] at hv
        simp only [] at hv
        cases hv
        have hall : ∀ b ∈ c, ∃ y, b.result = .ok y := by
          intro b hb
          have hsb : some b ∈ (indexedFrom 0 items).map fun ix =>
              visitJson f fuel ix.2 (ptr ++ "/" ++ toString ix.1) :=
            mem_of_forall₂_some (seqOption_eq_some hs) b hb
          obtain ⟨ix, _, hix⟩ := List.mem_map.mp hsb
          exact ih ix.2 (ptr ++ "/" ++ toString ix.1) b hix
        obtain ⟨xs, hxs⟩ := combineAsync_ok_of hall
        exact ⟨.arr xs, by simp [hxs, Except.map]⟩

/-! ## Order-preserving assembly -/

theorem visitJson_container_shape
    (f : JsonValue → String → AsyncSingle JsonValue) (fuel : Nat)
    (v : JsonValue) (ptr : String) (d : Nat) (res : JsonValue)
    (hv : visitJson f (fuel + 1) v ptr = some ⟨d, .ok res⟩) :
    (∀ entries, (f v ptr).result = .ok (.obj entries) →
      ∃ vs, res = .obj ((entries.map Prod.fst).zip vs) ∧
        List.Forall₂ (fun kc y => ∃ b,
          visitJson f fuel kc.2 (ptr ++ "/" ++ kc.1) = some b ∧
            b.result = .ok y) entries vs)
  ∧ (∀ items, (f v ptr).result = .ok (.arr items) →
      ∃ vs, res = .arr vs ∧
        List.Forall₂ (fun ix y => ∃ b,
          visitJson f fuel ix.2 (ptr ++ "/" ++ toString ix.1) = some b ∧
            b.result = .ok y) (indexedFrom 0 items) vs) := by
  constructor
  · intro entries hok
    simp only [visitJson] at hv
    rw [hok] at hv
    simp only [] at hv
    cases hs : seqOption (entries.map fun kc =>
        visitJson f fuel kc.2 (ptr ++ "/" ++ kc.1)) with
    | none => rw [hs] at hv; cases hv
    | some c =>
      rw [hs] at hv
      simp only [] at hv
      cases hcr : (combineAsync c).result with
      | error e => rw [hcr] at hv; simp [Except.map] at hv
      | ok vs =>
        rw [hcr] at hv
        simp only [Except.map, Option.some.injEq, AsyncSingle.mk.injEq,
          Except.ok.injEq] at hv
        refine ⟨vs, hv.2.symm, ?_⟩
        exact forall₂_compose
          (List.forall₂_map_left_iff.mp (seqOption_eq_some hs))
          (combineAsync_result_ok hcr)
  · intro items hok
    simp only [visitJson] at hv
    rw [hok] at hv
    simp only [] at hv
    cases hs : seqOption ((indexedFrom 0 items).map fun ix =>
        visitJson f fuel ix.2 (ptr ++ "/" ++ toString ix.1)) with
    | none => rw [hs] at hv; cases hv
    | some c =>
      rw [hs] at hv
      simp only [] at hv
      cases hcr : (combineAsync c).result with
      | error e => rw [hcr] at hv; simp [Except.map] at hv
      | ok vs =>
        rw [hcr] at hv
        simp only [Except.map, Option.some.injEq, AsyncSingle.mk.injEq,
          Except.ok.injEq] at hv
        refine ⟨vs, hv.2.symm, ?_⟩
        exact forall₂_compose
          (List.forall₂_map_left_iff.mp (seqOption_eq_some hs))
          (combineAsync_result_ok hcr)

/-! ## Pointer format -/

theorem visitCalls_pointer_shape
    (f : JsonValue → String → AsyncSingle JsonValue) :
    ∀ (fuel : Nat) (v : JsonValue) (ptr : String) (pw : String × JsonValue),
      pw ∈ visitCalls f fuel v ptr →
      pw = (ptr, v) ∨
      ∃ q u seg, (q, u) ∈ visitCalls f fuel v ptr ∧ pw.1 = q ++ "/" ++ seg ∧
        ((∃ entries, (f u q).result = .ok (.obj entries) ∧ (seg, pw.2) ∈ entries) ∨
         (∃ (items : List JsonValue) (i : Nat),
           (f u q).result = .ok (.arr items) ∧ seg = toString i ∧
           items[i]? = some pw.2)) := by
  intro fuel
  induction fuel with
  | zero => intro v ptr pw hm; cases hm
  | succ fuel ih =>
    intro v ptr pw hm
    simp only [visitCalls] at hm
    rcases List.mem_cons.mp hm with h | h
    · exact Or.inl h
    · cases hr : (f v ptr).result with
      | error e => rw [hr] at h; simp only [] at h; cases h
      | ok r =>
        rw [hr] at h
        cases r with
        | null => simp only [] at h; cases h
        | bool b => simp only [] at h; cases h
        | num n => simp only [] at h; cases h
        | str s => simp only [] at h; cases h
        | obj entries =>
          simp only [] at h
          obtain ⟨kc, hkc, hpw⟩ := List.mem_flatMap.mp h
          obtain ⟨k, c⟩ := kc
          rcases ih c (ptr ++ "/" ++ k) pw hpw with heq | ⟨q, u, seg, hqu, hp1, hrest⟩
          · subst heq
            refine Or.inr ⟨ptr, v, k, ?_, rfl, Or.inl ⟨entries, hr, hkc⟩⟩
            simp only [visitCalls]
            exact List.mem_cons_self _ _
          · refine Or.inr ⟨q, u, seg, ?_, hp1, hrest⟩
            simp only [visitCalls]
            rw [hr]
            simp only []
            exact List.mem_cons_of_mem _
              (List.mem_flatMap.mpr ⟨(k, c), hkc, hqu⟩)
        | arr items =>
          simp only [] at h
          obtain ⟨ix, hix, hpw⟩ := List.mem_flatMap.mp h
          obtain ⟨i, x⟩ := ix
          rcases ih x (ptr ++ "/" ++ toString i) pw hpw with heq | ⟨q, u, seg, hqu, hp1, hrest⟩
          · subst heq
            obtain ⟨-, hget⟩ := getElem?_of_mem_indexedFrom hix
            refine Or.inr ⟨ptr, v, toString i, ?_, rfl,
              Or.inr ⟨items, i, hr, rfl, by simpa using hget⟩⟩
            simp only [visitCalls]
            exact List.mem_cons_self _ _
          · refine Or.inr ⟨q, u, seg, ?_, hp1, hrest⟩
            simp only [visitCalls]
            rw [hr]
            simp only []
            exact List.mem_cons_of_mem _
              (List.mem_flatMap.mpr ⟨(i, x), hix, hqu⟩)

theorem findUp_eq_searchOrder_find (fsExists : List String → String → Bool)
    (names : List String) :
    ∀ dir, findUp fsExists names dir =
      (searchOrder names dir).find? (fun c => fsExists c.1 c.2) := by
  intro dir
  induction dir with
  | nil => rfl
  | cons d ds ih =>
    simp only [findUp, searchOrder, List.find?_append, List.find?_map]
    cases hf : names.find? (fun name => fsExists (d :: ds) name) with
    | some name =>
      have hf' : names.find? ((fun c => fsExists c.1 c.2) ∘
          fun name => (d :: ds, name)) = some name := by
        simpa [Function.comp] using hf
      simp [hf, hf', Option.or]
    | none =>
      have hf' : names.find? ((fun c => fsExists c.1 c.2) ∘
          fun name => (d :: ds, name)) = none := by
        simpa [Function.comp] using hf
      simp [hf, hf', Option.or, ih]

theorem findUp_none_of_only_root (fsExists : List String → String → Bool)
    (names : List String)
    (H : ∀ d name, fsExists d name = true → d = []) :
    ∀ dir, findUp fsExists names dir = none := by
  intro dir
  induction dir with
  | nil => rfl
  | cons d ds ih =>
    simp only [findUp]
    have hf : names.find? (fun name => fsExists (d :: ds) name) = none := by
      rw [List.find?_eq_none]
      intro name _ hcontra
      have := H _ _ (by simpa using hcontra)
      simp at this
    simp [hf, ih]


theorem combineAsync_first_error_spec {α : Type}
    (f : JsonValue → String → AsyncSingle JsonValue)
    {tr : α → List (String × JsonValue)} :
    ∀ {l : List α} {c : List (AsyncSingle JsonValue)},
      List.Forall₂ (fun x b => FirstErrorSpec f (tr x) b.result) l c →
      FirstErrorSpec f (l.flatMap tr) (combineAsync c).result := by
  intro l c H
  induction H with
  | nil =>
    exact ⟨fun qw hq => by simp at hq, fun _ => ⟨[], rfl⟩⟩
  | @cons x b tl tc hxb _ ih =>
    constructor
    · intro qw hq
      rw [List.flatMap_cons, List.find?_append] at hq
      cases h1 : (tr x).find? (callFails f) with
      | some qw₀ =>
        rw [h1] at hq
        simp only [Option.or_some, Option.some.injEq] at hq
        subst hq
        obtain ⟨e, hfe, hbe⟩ := hxb.1 qw₀ h1
        exact ⟨e, hfe, by simp [combineAsync, hbe]⟩
      | none =>
        rw [h1] at hq
        simp only [Option.none_or] at hq
        obtain ⟨xb, hxb2⟩ := hxb.2 h1
        obtain ⟨e, hfe, hce⟩ := ih.1 qw hq
        exact ⟨e, hfe, by simp [combineAsync, hxb2, hce]⟩
    · intro hq
      rw [List.flatMap_cons, List.find?_append, Option.or_eq_none] at hq
      obtain ⟨h1, h2⟩ := hq
      obtain ⟨xb, hxb2⟩ := hxb.2 h1
      obtain ⟨xs, hcs⟩ := ih.2 h2
      exact ⟨xb :: xs, by simp [combineAsync, hxb2, hcs]⟩

theorem visitJson_first_error_spec
    (f : JsonValue → String → AsyncSingle JsonValue) :
    ∀ (fuel : Nat) (v : JsonValue) (ptr : String) (a : AsyncSingle JsonValue),
      visitJson f fuel v ptr = some a →
      FirstErrorSpec f (visitCalls f fuel v ptr) a.result := by
  intro fuel
  induction fuel with
  | zero => intro v ptr a hv; cases hv
  | succ fuel ih =>
    intro v ptr a hv
    simp only [visitJson] at hv
    simp only [visitCalls]
    cases hr : (f v ptr).result with
    | error e =>
      rw [hr] at hv
      simp only [] at hv
      cases hv
      have hcf : callFails f (ptr, v) = true := by simp [callFails, hr]
      constructor
      · intro qw hq
        rw [List.find?_cons_of_pos _ hcf] at hq
        cases hq
        exact ⟨e, hr, rfl⟩
      · intro hq
        rw [List.find?_cons_of_pos _ hcf] at hq
        cases hq
    | ok r =>
      rw [hr] at hv
      simp only [] at hv
      have hcf : ¬ callFails f (ptr, v) = true := by simp [callFails, hr]
      cases r with
      | null =>
        cases hv
        exact ⟨fun qw hq => by
            rw [List.find?_cons_of_neg _ hcf] at hq
            simp at hq,
          fun _ => ⟨.null, rfl⟩⟩
      | bool b =>
        cases hv
        exact ⟨fun qw hq => by
            rw [List.find?_cons_of_neg _ hcf] at hq
            simp at hq,
          fun _ => ⟨.bool b, rfl⟩⟩
      | num n =>
        cases hv
        exact ⟨fun qw hq => by
            rw [List.find?_cons_of_neg _ hcf] at hq
            simp at hq,
          fun _ => ⟨.num n, rfl⟩⟩
      | str st =>
        cases hv
        exact ⟨fun qw hq => by
            rw [List.find?_cons_of_neg _ hcf] at hq
            simp at hq,
          fun _ => ⟨.str st, rfl⟩⟩
      | obj entries =>
        simp only [] at hv
        cases hs : seqOption (entries.map fun kc =>
            visitJson f fuel kc.2 (ptr ++ "/" ++ kc.1)) with
        | none => rw [hs] at hv; cases hv
        | some c =>
          rw [hs] at hv
          simp only [] at hv
          cases hv
          have hspec : List.Forall₂ (fun kc b =>
              FirstErrorSpec f (visitCalls f fuel kc.2 (ptr ++ "/" ++ kc.1))
                b.result) entries c :=
            (List.forall₂_map_left_iff.mp (seqOption_eq_some hs)).imp
              (fun kc b hvb => ih kc.2 (ptr ++ "/" ++ kc.1) b hvb)
          have hcomb := combineAsync_first_error_spec f hspec
          constructor
          · intro qw hq
            rw [List.find?_cons_of_neg _ hcf] at hq
            simp only [] at hq
            obtain ⟨e, hfe, hce⟩ := hcomb.1 qw hq
            exact ⟨e, hfe, by simp [hce, Except.map]⟩
          · intro hq
            rw [List.find?_cons_of_neg _ hcf] at hq
            simp only [] at hq
            obtain ⟨xs, hcs⟩ := hcomb.2 hq
            exact ⟨.obj ((entries.map Prod.fst).zip xs),
              by simp [hcs, Except.map]⟩
      | arr items =>
        simp only [] at hv
        cases hs : seqOption ((indexedFrom 0 items).map fun ix =>
            visitJson f fuel ix.2 (ptr ++ "/" ++ toString ix.1)) with
        | none => rw [hs] at hv; cases hv
        | some c =>
          rw [hs] at hv
          simp only [] at hv
          cases hv
          have hspec : List.Forall₂ (fun ix b =>
              FirstErrorSpec f
                (visitCalls f fuel ix.2 (ptr ++ "/" ++ toString ix.1))
                b.result) (indexedFrom 0 items) c :=
            (List.forall₂_map_left_iff.mp (seqOption_eq_some hs)).imp
              (fun ix b hvb => ih ix.2 (ptr ++ "/" ++ toString ix.1) b hvb)
          have hcomb := combineAsync_first_error_spec f hspec
          constructor
          · intro qw hq
            rw [List.find?_cons_of_neg _ hcf] at hq
            simp only [] at hq
            obtain ⟨e, hfe, hce⟩ := hcomb.1 qw hq
            exact ⟨e, hfe, by simp [hce, Except.map]⟩
          · intro hq
            rw [List.find?_cons_of_neg _ hcf] at hq
            simp only [] at hq
            obtain ⟨xs, hcs⟩ := hcomb.2 hq
            exact ⟨.arr xs, by simp [hcs, Except.map]⟩

/-! ## The claims -/

/-- C1: for the input `{a: 1}` and the Scenario C callback (pointer ending
in `a` ↦ `{b: ""}`, in `b` ↦ `{c: []}`, in `c` ↦ `[1, 2, 3]`, numbers ↦
`"_" + value`, root pointer ↦ unchanged, otherwise ↦ `"abc"`), `visitJson`
resolves to a tree deep-equal to `{a: {b: {c: ["_1", "_2", "_3"]}}}`. -/
theorem scenarioC_visit_result :
    visitJson scenarioCReplace 6 (.obj [("a", .num 1)]) "/" =
      some ⟨0, .ok (.obj [("a", .obj [("b", .obj [("c",
        .arr [.str "_1", .str "_2", .str "_3"])])])])⟩ := rfl

/-- C2: for every JsonValue V, visiting V with the identity callback
`(v) => v` (with any recursion fuel exceeding the size of V) resolves,
without delay, to a value deep-equal to V. -/
theorem visit_identity_law (v : JsonValue) (ptr : String) (fuel : Nat)
    (h : sizeOf v < fuel) :
    visitJson identityReplace fuel v ptr = some ⟨0, .ok v⟩ :=
  visitJson_identity_aux fuel v ptr h

/-- Witness for C2 at the concrete input `{a: 1}`. -/
theorem visit_identity_law_witness :
    sizeOf (JsonValue.obj [("a", JsonValue.num 1)]) < 200 ∧
    visitJson identityReplace 200 (.obj [("a", .num 1)]) "/" =
      some ⟨0, .ok (.obj [("a", .num 1)])⟩ :=
  ⟨by decide, visit_identity_law (.obj [("a", .num 1)]) "/" 200 (by decide)⟩

/-- C3: replacing the root `{a: 1}` with the container `{b: "hello "}`
makes the engine visit the replacement at the root pointer and descend into
it: the callback trace is exactly the root invocation followed by an
invocation on the replacement container's descendant `"hello "` (at the
pointer derived from the root), and the final result is
`{b: "hello world"}`. -/
theorem root_substitution_descends :
    visitJson rootSubstReplace 3 (.obj [("a", .num 1)]) "/" =
      some ⟨0, .ok (.obj [("b", .str "hello world")])⟩ ∧
    visitCalls rootSubstReplace 3 (.obj [("a", .num 1)]) "/" =
      [("/", .obj [("a", .num 1)]), ("//b", .str "hello ")] := ⟨rfl, rfl⟩

/-- C4: the pointer passed to the replace callback is `"/"` for the root
node, and for every non-root invocation it is the pointer of an invoked
parent concatenated with `"/"` and the object key (for object properties)
or the stringified index (for array elements) of the visited child within
the parent's resolved container value. -/
theorem visit_pointer_format
    (f : JsonValue → String → AsyncSingle JsonValue) (fuel : Nat)
    (v : JsonValue) (pw : String × JsonValue)
    (hm : pw ∈ visitCalls f fuel v "/") :
    pw = ("/", v) ∨
    ∃ q u seg, (q, u) ∈ visitCalls f fuel v "/" ∧ pw.1 = q ++ "/" ++ seg ∧
      ((∃ entries, (f u q).result = .ok (.obj entries) ∧ (seg, pw.2) ∈ entries) ∨
       (∃ (items : List JsonValue) (i : Nat),
         (f u q).result = .ok (.arr items) ∧ seg = toString i ∧
         items[i]? = some pw.2)) :=
  visitCalls_pointer_shape f fuel v "/" pw hm

/-- Witness for C4: the second callback invocation of Scenario C. -/
theorem visit_pointer_format_witness :
    (("//a", JsonValue.num 1) ∈
      visitCalls scenarioCReplace 6 (.obj [("a", .num 1)]) "/") ∧
    ((("//a", JsonValue.num 1) : String × JsonValue) =
        ("/", JsonValue.obj [("a", JsonValue.num 1)]) ∨
      ∃ q u seg,
        (q, u) ∈ visitCalls scenarioCReplace 6 (.obj [("a", .num 1)]) "/" ∧
        ("//a", JsonValue.num 1).1 = q ++ "/" ++ seg ∧
        ((∃ entries, (scenarioCReplace u q).result = .ok (.obj entries) ∧
            (seg, ("//a", JsonValue.num 1).2) ∈ entries) ∨
         (∃ (items : List JsonValue) (i : Nat),
           (scenarioCReplace u q).result = .ok (.arr items) ∧
           seg = toString i ∧ items[i]? = some ("//a", JsonValue.num 1).2))) :=
  have hm : ("//a", JsonValue.num 1) ∈
      visitCalls scenarioCReplace 6 (.obj [("a", .num 1)]) "/" :=
    List.Mem.tail _ (List.Mem.head _)
  ⟨hm, visit_pointer_format scenarioCReplace 6 (.obj [("a", .num 1)]) _ hm⟩

/-- C5: each traversal yields exactly one terminal outcome, the single
`AsyncSingle` result of `visitJson`.  When every callback invocation of
the traversal succeeds, that outcome carries exactly one final value.
When any invoked callback fails, the whole traversal fails: the outcome
is an error raised by an invoked callback, carrying no value — hence no
partial or assembled result for any ancestor of the failing node — and it
is exactly the error of the first failing invocation in traversal order
("that error"). -/
theorem visit_failure_propagation
    (f : JsonValue → String → AsyncSingle JsonValue) (fuel : Nat)
    (v : JsonValue) (ptr : String) (a : AsyncSingle JsonValue)
    (hv : visitJson f fuel v ptr = some a) :
    ((∀ qw ∈ visitCalls f fuel v ptr, ∃ x, (f qw.2 qw.1).result = .ok x) →
      ∃ x, a.result = .ok x) ∧
    (∀ qw e, qw ∈ visitCalls f fuel v ptr → (f qw.2 qw.1).result = .error e →
      ∃ e', a.result = .error e' ∧ ∃ qw', qw' ∈ visitCalls f fuel v ptr ∧
        (f qw'.2 qw'.1).result = .error e') ∧
    (∀ qw e, (visitCalls f fuel v ptr).find? (callFails f) = some qw →
      (f qw.2 qw.1).result = .error e → a.result = .error e) := by
  have hspec := visitJson_first_error_spec f fuel v ptr a hv
  refine ⟨?_, ?_, ?_⟩
  · intro hok
    apply hspec.2
    rw [List.find?_eq_none]
    intro qw hqw
    obtain ⟨x, hx⟩ := hok qw hqw
    simp [callFails, hx]
  · intro qw e hqw hfe
    cases hfind : (visitCalls f fuel v ptr).find? (callFails f) with
    | none =>
      rw [List.find?_eq_none] at hfind
      exact absurd (show callFails f qw = true by simp [callFails, hfe])
        (by simpa using hfind qw hqw)
    | some qw₀ =>
      obtain ⟨e₀, hfe₀, hae₀⟩ := hspec.1 qw₀ hfind
      exact ⟨e₀, hae₀, qw₀, List.mem_of_find?_eq_some hfind, hfe₀⟩
  · intro qw e hfind hfe
    obtain ⟨e₀, hfe₀, hae₀⟩ := hspec.1 qw hfind
    rw [hfe] at hfe₀
    cases hfe₀
    exact hae₀

/-- Witness for C5: a callback failing at the root is the first failing
invocation of the trace, and the traversal fails with exactly its error. -/
theorem visit_failure_propagation_witness :
    visitJson failingReplace 1 (.obj [("a", .num 1)]) "/" =
      some ⟨0, .error "boom"⟩ ∧
    (visitCalls failingReplace 1 (.obj [("a", .num 1)]) "/").find?
      (callFails failingReplace) = some ("/", .obj [("a", .num 1)]) ∧
    (⟨0, .error "boom"⟩ : AsyncSingle JsonValue).result = .error "boom" :=
  ⟨rfl, rfl,
    (visit_failure_propagation failingReplace 1 (.obj [("a", .num 1)]) "/"
        ⟨0, .error "boom"⟩ rfl).2.2 ("/", .obj [("a", .num 1)]) "boom"
      rfl rfl⟩

/-- C6: the container assembled for a node preserves the original key order
(objects) and index order (arrays) of the node's resolved value — position
i of the assembled container is the outcome of visiting position i of the
resolved container — and the traversal outcome is independent of the
callbacks' settlement delays, i.e. of the relative order in which the
asynchronous child visits settle. -/
theorem visit_order_preservation
    (f g : JsonValue → String → AsyncSingle JsonValue)
    (H : ∀ w q, (f w q).result = (g w q).result)
    (fuel : Nat) (v : JsonValue) (ptr : String) :
    ((visitJson f fuel v ptr).map AsyncSingle.result =
      (visitJson g fuel v ptr).map AsyncSingle.result) ∧
    ∀ (d : Nat) (res : JsonValue),
      visitJson f (fuel + 1) v ptr = some ⟨d, .ok res⟩ →
      (∀ entries, (f v ptr).result = .ok (.obj entries) →
        ∃ vs, res = .obj ((entries.map Prod.fst).zip vs) ∧
          List.Forall₂ (fun kc y => ∃ b,
            visitJson f fuel kc.2 (ptr ++ "/" ++ kc.1) = some b ∧
              b.result = .ok y) entries vs) ∧
      (∀ items, (f v ptr).result = .ok (.arr items) →
        ∃ vs, res = .arr vs ∧
          List.Forall₂ (fun ix y => ∃ b,
            visitJson f fuel ix.2 (ptr ++ "/" ++ toString ix.1) = some b ∧
              b.result = .ok y) (indexedFrom 0 items) vs) :=
  ⟨visitJson_result_congr f g H fuel v ptr,
   fun d res hv => visitJson_container_shape f fuel v ptr d res hv⟩

/-- Witness for C6: Scenario C against its delayed variant, in which deeper
nodes settle earlier than their parents' siblings. -/
theorem visit_order_preservation_witness :
    (∀ w q, (scenarioCReplace w q).result = (scenarioCDelayed w q).result) ∧
    (((visitJson scenarioCReplace 5 (.obj [("a", .num 1)]) "/").map
        AsyncSingle.result =
      (visitJson scenarioCDelayed 5 (.obj [("a", .num 1)]) "/").map
        AsyncSingle.result) ∧
    ∀ (d : Nat) (res : JsonValue),
      visitJson scenarioCReplace 6 (.obj [("a", .num 1)]) "/" =
          some ⟨d, .ok res⟩ →
      (∀ entries,
          (scenarioCReplace (.obj [("a", .num 1)]) "/").result =
            .ok (.obj entries) →
        ∃ vs, res = .obj ((entries.map Prod.fst).zip vs) ∧
          List.Forall₂ (fun kc y => ∃ b,
            visitJson scenarioCReplace 5 kc.2 ("/" ++ "/" ++ kc.1) = some b ∧
              b.result = .ok y) entries vs) ∧
      (∀ items,
          (scenarioCReplace (.obj [("a", .num 1)]) "/").result =
            .ok (.arr items) →
        ∃ vs, res = .arr vs ∧
          List.Forall₂ (fun ix y => ∃ b,
            visitJson scenarioCReplace 5 ix.2 ("/" ++ "/" ++ toString ix.1) =
                some b ∧
              b.result = .ok y) (indexedFrom 0 items) vs)) :=
  ⟨fun _ _ => rfl,
    visit_order_preservation scenarioCReplace scenarioCDelayed
      (fun _ _ => rfl) 5 (.obj [("a", .num 1)]) "/"⟩

/-- C7: for fixed replacement rules, running them synchronously (delay 0)
or wrapped in asynchronous resolution with arbitrary settlement delays
yields identical terminal outcomes, in particular identical final trees. -/
theorem visit_sync_async_equivalence
    (rules : JsonValue → String → JsonValue)
    (delays : JsonValue → String → Nat)
    (fuel : Nat) (v : JsonValue) (ptr : String) :
    (visitJson (fun w q => ⟨delays w q, .ok (rules w q)⟩) fuel v ptr).map
        AsyncSingle.result =
      (visitJson (fun w q => ⟨0, .ok (rules w q)⟩) fuel v ptr).map
        AsyncSingle.result :=
  visitJson_result_congr (fun w q => ⟨delays w q, .ok (rules w q)⟩)
    (fun w q => ⟨0, .ok (rules w q)⟩) (fun _ _ => rfl) fuel v ptr

/-- C9 counterexample: starting from `/a` while `.workspace.json` exists
only in the filesystem root `/` — a parent directory of `/a` — the walk the
claim describes finds the file, but `findUp` returns null and the launcher
exits with code 3 instead of returning the existing match. -/
theorem launcher_config_lookup_counterexample :
    (searchOrderWithRoot [configFileName] ["a"]).find?
        (fun c => rootOnlyFs c.1 c.2) = some ([], configFileName) ∧
    rootOnlyFs [] configFileName = true ∧
    findUp rootOnlyFs [configFileName] ["a"] = none ∧
    locateWorkspaceConfig rootOnlyFs ["a"] = .exitCode 3 :=
  ⟨rfl, rfl, rfl, rfl⟩

/-- C9 (amended): the launcher locates `.workspace.json` by checking the
current working directory and then walking successive parent directories,
excluding the filesystem root, and returns the first existing match in
that order; when no match exists in those non-root directories it exits
with code 3 instead of parsing a configuration. -/
theorem launcher_config_lookup_amended
    (fsExists : List String → String → Bool) (cwd : List String) :
    locateWorkspaceConfig fsExists cwd =
      (match (searchOrder [configFileName] cwd).find?
          (fun c => fsExists c.1 c.2) with
       | some p => .runWith p
       | none => .exitCode 3) ∧
    ∀ (names : List String) (dir : List String),
      findUp fsExists names dir =
        (searchOrder names dir).find? (fun c => fsExists c.1 c.2) := by
  constructor
  · unfold locateWorkspaceConfig
    rw [findUp_eq_searchOrder_find]
    cases (searchOrder [configFileName] cwd).find? (fun c => fsExists c.1 c.2) with
    | none => rfl
    | some p => rfl
  · intro names dir
    exact findUp_eq_searchOrder_find fsExists names dir

/-- C10: `findUp` never examines the filesystem root directory itself: if
every existing file lives directly in the root, `findUp` returns null from
every starting directory, and it returns null immediately when the
starting directory already is the root. -/
theorem findUp_root_never_found
    (fsExists : List String → String → Bool) (names : List String)
    (H : ∀ d name, fsExists d name = true → d = []) :
    (∀ dir, findUp fsExists names dir = none) ∧
    findUp fsExists names [] = none :=
  ⟨findUp_none_of_only_root fsExists names H, rfl⟩

/-- Witness for C10: `.workspace.json` existing only in the root is never
found. -/
theorem findUp_root_never_found_witness :
    (∀ d name, rootOnlyFs d name = true → d = []) ∧
    ((∀ dir, findUp rootOnlyFs [configFileName] dir = none) ∧
      findUp rootOnlyFs [configFileName] [] = none) :=
  ⟨fun d name h => by
      cases d with
      | nil => rfl
      | cons x xs => simp [rootOnlyFs] at h,
    findUp_root_never_found rootOnlyFs [configFileName]
      (fun d name h => by
        cases d with
        | nil => rfl
        | cons x xs => simp [rootOnlyFs] at h)⟩
